import Mathlib

/-!
Shallow embedding of the `portfolio_ai` core (analyzer, rebalancer, metrics
library) and proofs about it.

Modelling conventions:
* Python `float` values are modelled as `ℚ` (and as `ℝ` where the code takes
  square roots or real powers); a float `NaN` produced by `pandas`/`numpy`
  (e.g. sample std of a one-element series) is modelled as `Option.none`.
* Code that can raise is modelled in `Except String` (or `Option` where only
  one kind of exception exists); `Except.error` / `none` stand for a raised
  Python exception.
* `pandas` Series are modelled as `List ℚ` indexed positionally.
-/

/-- Models `portfolio_ai.core.models.Holding` (the `as_of_date`-free part used
by the analyzer; the dataclass field `currency` is kept). -/
structure Holding where
  ticker : String
  name : String
  quantity : ℚ
  avg_cost : ℚ
  currency : String
deriving DecidableEq

/-- `Holding.total_cost` property: `quantity * avg_cost`. -/
def Holding.total_cost (h : Holding) : ℚ := h.quantity * h.avg_cost

/-- Models `portfolio_ai.core.models.Portfolio` (the `as_of_date` field is
omitted: it is never read by the analyzer or rebalancer). -/
structure Portfolio where
  name : String
  holdings : List Holding
  currency : String
deriving DecidableEq

/-- `Portfolio.total_cost` property: sum of the holdings' total costs. -/
def Portfolio.total_cost (p : Portfolio) : ℚ :=
  (p.holdings.map Holding.total_cost).sum

/-- Models `portfolio_ai.core.models.HoldingAnalysis`. -/
structure HoldingAnalysis where
  ticker : String
  name : String
  quantity : ℚ
  avg_cost : ℚ
  current_price : ℚ
  market_value : ℚ
  weight_pct : ℚ
  return_pct : ℚ
  sector : String
deriving DecidableEq

/-- Models `portfolio_ai.core.rebalancer.RebalanceOrder`. -/
structure RebalanceOrder where
  ticker : String
  name : String
  action : String
  quantity : ℤ
  current_price : ℚ
  estimated_cost : ℚ
deriving DecidableEq

/-- Models `portfolio_ai.core.rebalancer.RebalanceResult`. -/
structure RebalanceResult where
  orders : List RebalanceOrder
  total_buy_cost : ℚ
  total_sell_proceeds : ℚ
  net_cost : ℚ
  estimated_tax : ℚ
deriving DecidableEq

/-- Models Python `dict.get(key, 0.0)` on the `target_weights` dict, the dict
being modelled as an association list (first binding wins, as dict keys are
unique). Used for `target_weights.get(holding.ticker, 0.0)`. -/
def dictGet (tw : List (String × ℚ)) (t : String) : ℚ :=
  match tw with
  | [] => 0
  | (k, v) :: rest => if k = t then v else dictGet rest t

/-- `diff_value` of a holding in `rebalance`:
`total_value * (target_pct / 100) - holding.market_value` (rebalancer.py
lines 55-56). -/
def diffValue (tw : List (String × ℚ)) (total_value : ℚ) (h : HoldingAnalysis) : ℚ :=
  total_value * (dictGet tw h.ticker / 100) - h.market_value

/-- The contribution of one loop iteration of `rebalance`: the optional order
emitted for the holding together with the amounts added to the `total_buy`,
`total_sell` and `estimated_tax` accumulators. -/
structure StepResult where
  order : Option RebalanceOrder
  buy : ℚ
  sell : ℚ
  tax : ℚ
deriving DecidableEq

/-- One iteration of the `for holding in holdings` loop of `rebalance`
(rebalancer.py lines 48-91).  `none` models the `ZeroDivisionError` raised by
`abs(diff_value) / holding.current_price` when `current_price` is zero; the
code has no guard on `current_price`. -/
def rebalanceStep (tw : List (String × ℚ)) (total_value tolerance tax_rate : ℚ)
    (h : HoldingAnalysis) : Option StepResult :=
  let target_pct := dictGet tw h.ticker
  let diff_pct := target_pct - h.weight_pct
  if |diff_pct| ≤ tolerance then some ⟨none, 0, 0, 0⟩
  else if h.current_price = 0 then none
  else
    let dv := diffValue tw total_value h
    let quantity : ℤ := ⌊|dv| / h.current_price⌋
    if quantity = 0 then some ⟨none, 0, 0, 0⟩
    else if 0 < dv then
      let cost := (quantity : ℚ) * h.current_price
      some ⟨some ⟨h.ticker, h.name, "BUY", quantity, h.current_price, cost⟩, cost, 0, 0⟩
    else
      let proceeds := (quantity : ℚ) * h.current_price
      let gain := h.current_price - h.avg_cost
      let tax := if 0 < gain ∧ 0 < tax_rate then (quantity : ℚ) * gain * tax_rate else 0
      some ⟨some ⟨h.ticker, h.name, "SELL", quantity, h.current_price, -proceeds⟩, 0, proceeds, tax⟩

/-- The whole loop of `rebalance`: processes the holdings in order, propagating
a raised exception (`none`) and accumulating orders, buy cost, sell proceeds
and estimated tax. -/
def rebalanceAux (tw : List (String × ℚ)) (total_value tolerance tax_rate : ℚ) :
    List HoldingAnalysis → Option (List RebalanceOrder × ℚ × ℚ × ℚ)
  | [] => some ([], 0, 0, 0)
  | h :: rest =>
    (rebalanceStep tw total_value tolerance tax_rate h).bind fun s =>
      (rebalanceAux tw total_value tolerance tax_rate rest).bind fun acc =>
        some (s.order.toList ++ acc.1, s.buy + acc.2.1, s.sell + acc.2.2.1, s.tax + acc.2.2.2)

/-- Models `portfolio_ai.core.rebalancer.rebalance`.  In the source,
`tolerance` defaults to `1.0` and `tax_rate` to `0.0`; here they are always
passed explicitly.  `none` models a raised `ZeroDivisionError`. -/
def rebalance (holdings : List HoldingAnalysis) (tw : List (String × ℚ))
    (total_value tolerance tax_rate : ℚ) : Option RebalanceResult :=
  (rebalanceAux tw total_value tolerance tax_rate holdings).map fun acc =>
    ⟨acc.1, acc.2.1, acc.2.2.1, acc.2.1 - acc.2.2.1, acc.2.2.2⟩

/-- The estimated-tax contribution of a single holding as the specification
describes it: `quantity * gain_per_share * tax_rate` exactly when the holding
yields a SELL order, its gain per share is strictly positive and
`tax_rate > 0`; `0` otherwise (also when the iteration raises). -/
def taxContribution (tw : List (String × ℚ)) (total_value tolerance tax_rate : ℚ)
    (h : HoldingAnalysis) : ℚ :=
  (((rebalanceStep tw total_value tolerance tax_rate h).bind fun s =>
    s.order.map fun o =>
      if o.action = "SELL" ∧ 0 < h.current_price - h.avg_cost ∧ 0 < tax_rate then
        (o.quantity : ℚ) * (h.current_price - h.avg_cost) * tax_rate
      else 0).getD 0)

/-! ### Metrics library (`portfolio_ai/utils/metrics.py`) -/

/-- Models `metrics.total_return`: raises `ValueError` when `initial <= 0`,
otherwise returns `((final - initial) / initial) * 100`. -/
def total_return (initial final : ℚ) : Except String ℚ :=
  if initial ≤ 0 then .error ("Initial value must be positive")
  else .ok (((final - initial) / initial) * 100)

/-- Models `metrics.annualized_return`: raises `ValueError` when `years <= 0`,
otherwise `((1 + r/100) ** (1/years) - 1) * 100` (real power). -/
noncomputable def annualized_return (total_return_pct years : ℚ) : Except String ℝ :=
  if years ≤ 0 then .error ("Years must be positive")
  else .ok (((1 + (total_return_pct : ℝ) / 100) ^ ((1 : ℝ) / (years : ℝ)) - 1) * 100)

/-- Mean of a series, as `pandas` `Series.mean()` computes it (sum / length;
the empty case is never reached under the guards of the callers). -/
def listMean (xs : List ℚ) : ℚ := xs.sum / xs.length

/-- Sample variance with `ddof=1` (the `pandas`/`numpy` default used by
`Series.std()` and `np.cov`): sum of squared deviations divided by `n - 1`. -/
def sampleVarQ (xs : List ℚ) : ℚ :=
  ((xs.map fun v => (v - listMean xs) ^ 2).sum) / ((xs.length : ℚ) - 1)

/-- `pandas` sample variance as a value: `NaN` (modelled `none`) when the
series has fewer than two observations. -/
def sampleVar (xs : List ℚ) : Option ℚ :=
  if 2 ≤ xs.length then some (sampleVarQ xs) else none

/-- Sample covariance of two equal-length series with `ddof=1`, as the
off-diagonal entry of `np.cov(p, b)`; `NaN` (`none`) when there are fewer
than two observations. -/
def sampleCov (p b : List ℚ) : Option ℚ :=
  if 2 ≤ p.length ∧ 2 ≤ b.length then
    some ((((p.zip b).map fun q => (q.1 - listMean p) * (q.2 - listMean b)).sum) /
      ((p.length : ℚ) - 1))
  else none

/-- `pandas` `Series.std()` (`ddof=1`): `NaN` (`none`) for series of length
below two, otherwise the square root of the sample variance. -/
noncomputable def sampleStd (xs : List ℚ) : Option ℝ :=
  if 2 ≤ xs.length then some (Real.sqrt (sampleVarQ xs)) else none

/-- Models `metrics.volatility`: `0` for an empty series, else the sample
standard deviation, multiplied by `sqrt 252` when `annualize` is true.  The
result is `none` exactly when the float result is `NaN` (one-element
series). -/
noncomputable def volatility (returns : List ℚ) (annualize : Bool) : Option ℝ :=
  if returns = [] then some 0
  else (sampleStd returns).map fun s => if annualize then s * Real.sqrt 252 else s

/-- Models `metrics.sharpe_ratio`: `0` for an empty series or when the
annualized volatility is below `1e-10`; `NaN` comparisons are false in
Python, so a `NaN` volatility flows into the division and yields `NaN`. -/
noncomputable def sharpe_ratio (returns : List ℚ) (risk_free_rate : ℚ) : Option ℝ :=
  if returns = [] then some 0
  else
    match volatility returns true with
    | none => none
    | some vol =>
      if vol < (1 / 10 ^ 10 : ℝ) then some 0
      else some (((listMean returns : ℝ) * 252 - (risk_free_rate : ℝ)) / vol)

/-- Running maximum of a price series (`Series.cummax()`), given the maximum
of the values seen so far. -/
def cummaxAux (m : ℚ) : List ℚ → List ℚ
  | [] => []
  | x :: xs => (max m x) :: cummaxAux (max m x) xs

/-- `Series.cummax()`. -/
def cummax : List ℚ → List ℚ
  | [] => []
  | x :: xs => cummaxAux x (x :: xs)

/-- Minimum of a list (`Series.min()`); `0` default is never used by the
guarded caller. -/
def listMin : List ℚ → ℚ
  | [] => 0
  | x :: xs => xs.foldl min x

/-- Models `metrics.max_drawdown`: `0` for an empty series, otherwise
`min((prices - cummax) / cummax) * 100`. -/
def max_drawdown (prices : List ℚ) : ℚ :=
  if prices = [] then 0
  else listMin ((prices.zip (cummax prices)).map fun pc => (pc.1 - pc.2) / pc.2) * 100

/-- Models `metrics.beta`: `0` when either series is empty; both series are
truncated positionally to their common length, then
`cov(p, b) / var(b)` with the `np.cov` sample statistics; a benchmark
variance equal to `0.0` gives `0`, and a `NaN` covariance matrix (a single
observation) propagates to a `NaN` result. -/
def beta (portfolio_returns benchmark_returns : List ℚ) : Option ℚ :=
  if portfolio_returns = [] ∨ benchmark_returns = [] then some 0
  else
    let m := min portfolio_returns.length benchmark_returns.length
    let p := portfolio_returns.take m
    let b := benchmark_returns.take m
    match sampleCov p b, sampleVar b with
    | some cov01, some var_benchmark =>
      if var_benchmark = 0 then some 0 else some (cov01 / var_benchmark)
    | _, _ => none

/-- Models `metrics.alpha` (Jensen's alpha; pure arithmetic). -/
def alpha (portfolio_return benchmark_return beta_value risk_free_rate : ℝ) : ℝ :=
  portfolio_return - (risk_free_rate + beta_value * (benchmark_return - risk_free_rate))

/-! ### Analyzer (`portfolio_ai/core/analyzer.py`) -/

/-- The market-data collaborator (`MarketDataProvider`): a current price per
ticker (`none` when unresolvable), a sector string, and a historical closing
price series (empty on failure). -/
structure MarketData where
  current_price : String → Option ℚ
  sector : String → String
  historical_prices : String → List ℚ

/-- Models the internal `analyzer._HoldingData` holder. -/
structure HoldingData where
  ticker : String
  name : String
  quantity : ℚ
  avg_cost : ℚ
  current_price : ℚ
  market_value : ℚ
  sector : String
deriving DecidableEq

/-- One iteration of `PortfolioAnalyzer._gather_holdings_data`: `none` when
the current price is unresolvable, else the enriched `_HoldingData` with
`market_value = quantity * price` and the fetched sector. -/
def gatherOne (m : MarketData) (h : Holding) : Option HoldingData :=
  match m.current_price h.ticker with
  | none => none
  | some price =>
    some ⟨h.ticker, h.name, h.quantity, h.avg_cost, price, h.quantity * price,
      m.sector h.ticker⟩

/-- Models `PortfolioAnalyzer._gather_holdings_data`: holdings whose current
price is unresolvable are skipped; the rest are enriched with price, market
value and sector. -/
def gatherHoldingsData (m : MarketData) (p : Portfolio) : List HoldingData :=
  p.holdings.filterMap (gatherOne m)

/-- Models the construction of one `HoldingAnalysis` inside
`PortfolioAnalyzer.analyze` (analyzer.py lines 45-58): `weight_pct` is
`market_value / total_value * 100` when `total_value > 0` and `0` otherwise;
`return_pct = (current_price - avg_cost) / avg_cost * 100` raises
`ZeroDivisionError` when `avg_cost` is zero. -/
def buildHoldingAnalysis (total_value : ℚ) (h : HoldingData) :
    Except String HoldingAnalysis :=
  if h.avg_cost = 0 then .error ("float division by zero")
  else .ok
    { ticker := h.ticker
      name := h.name
      quantity := h.quantity
      avg_cost := h.avg_cost
      current_price := h.current_price
      market_value := h.market_value
      weight_pct := if 0 < total_value then h.market_value / total_value * 100 else 0
      return_pct := (h.current_price - h.avg_cost) / h.avg_cost * 100
      sector := h.sector }

/-- The `tuple(...)` generator of analyzer.py line 45: builds every
`HoldingAnalysis` in order, propagating the first raised exception. -/
def buildAll (total_value : ℚ) : List HoldingData → Except String (List HoldingAnalysis)
  | [] => .ok []
  | h :: rest =>
    Except.bind (buildHoldingAnalysis total_value h) fun a =>
      Except.bind (buildAll total_value rest) fun as => .ok (a :: as)

/-- Keys of a Python dict in insertion order: re-inserting an existing key
keeps its first position, so duplicates are dropped keeping the first
occurrence. -/
def dedupKeys : List String → List String
  | [] => []
  | t :: rest => t :: (dedupKeys rest).filter (fun s => s ≠ t)

/-- The keys of the `all_prices` dict built by
`_compute_portfolio_returns` / `_compute_max_drawdown`: tickers of the
analysed holdings whose historical series is non-empty, first occurrence
first (dict insertion-order semantics). -/
def histKeys (m : MarketData) (ha : List HoldingAnalysis) : List String :=
  dedupKeys (ha.filterMap fun h =>
    if m.historical_prices h.ticker = [] then none else some h.ticker)

/-- The `weights` vector: `h.weight_pct / 100` for each analysed holding whose
ticker is a key of `all_prices` (counted with multiplicity: a duplicated
ticker contributes one weight per holding but only one dict key). -/
def weightsFor (m : MarketData) (ha : List HoldingAnalysis) : List ℚ :=
  ha.filterMap fun h =>
    if h.ticker ∈ histKeys m ha then some (h.weight_pct / 100) else none

/-- Number of rows of `pd.DataFrame(all_prices).dropna()` in the positional
model: the length of the shortest column. -/
def minLenOf : List (List ℚ) → ℕ
  | [] => 0
  | c :: rest => rest.foldl (fun n c2 => min n c2.length) c.length

/-- Element `i` of a price column (in range on every evaluated index). -/
def colVal (c : List ℚ) (i : ℕ) : ℚ := c.getD i 0

/-- Row `i` of `price_df.pct_change().dropna()` dotted with the weight
vector: the weighted sum over columns of `(p[i+1] - p[i]) / p[i]`. -/
def pctRow (cols : List (List ℚ)) (w : List ℚ) (i : ℕ) : ℚ :=
  ((cols.zip w).map fun cw =>
    (colVal cw.1 (i + 1) - colVal cw.1 i) / colVal cw.1 i * cw.2).sum

/-- Row `i` of `price_df` dotted with the weight vector. -/
def valueRow (cols : List (List ℚ)) (w : List ℚ) (i : ℕ) : ℚ :=
  ((cols.zip w).map fun cw => colVal cw.1 i * cw.2).sum

/-- Models `PortfolioAnalyzer._compute_portfolio_returns`.  The `all_prices`
dict is keyed by ticker, so duplicated tickers collapse to one DataFrame
column while contributing one weight each; `DataFrame.dot(ndarray)` raises
`ValueError("Dot product shape mismatch")` when the weight vector's length
differs from the number of columns.  Early exits return the empty series. -/
def computePortfolioReturns (m : MarketData) (ha : List HoldingAnalysis) :
    Except String (List ℚ) :=
  let keys := histKeys m ha
  if keys = [] then .ok []
  else
    let cols := keys.map m.historical_prices
    let mlen := minLenOf cols
    if mlen = 0 then .ok []
    else
      let w := weightsFor m ha
      if mlen - 1 = 0 then .ok []
      else if w.length ≠ keys.length then .error ("Dot product shape mismatch")
      else .ok ((List.range (mlen - 1)).map fun i => pctRow cols w i)

/-- Models `PortfolioAnalyzer._compute_max_drawdown` (same dict/dot structure
as the returns computation, without the `pct_change`). -/
def computeMaxDrawdown (m : MarketData) (ha : List HoldingAnalysis) :
    Except String ℚ :=
  let keys := histKeys m ha
  if keys = [] then .ok 0
  else
    let cols := keys.map m.historical_prices
    let mlen := minLenOf cols
    if mlen = 0 then .ok 0
    else
      let w := weightsFor m ha
      if w.length ≠ keys.length then .error ("Dot product shape mismatch")
      else .ok (max_drawdown ((List.range mlen).map fun i => valueRow cols w i))

/-- `Series.pct_change().dropna()` on a positional series: successive relative
changes; empty for series of length below two. -/
def pctChange (ps : List ℚ) : List ℚ :=
  (List.range (ps.length - 1)).map fun i => (colVal ps (i + 1) - colVal ps i) / colVal ps i

/-- Models `PortfolioAnalyzer._get_benchmark_returns`. -/
def getBenchmarkReturns (m : MarketData) (benchmark : String) : List ℚ :=
  pctChange (m.historical_prices benchmark)

/-- Models `PortfolioAnalyzer._compute_benchmark_total_return`: `0` unless the
benchmark history has at least two observations, else
`total_return(first, last)` (which raises when the first price is not
positive). -/
def computeBenchmarkTotalReturn (m : MarketData) (benchmark : String) :
    Except String ℚ :=
  let ps := m.historical_prices benchmark
  if ps = [] ∨ ps.length < 2 then .ok 0
  else total_return (ps.headD 0) (ps.getLastD 0)

/-- Models `portfolio_ai.core.models.AnalysisResult` (fields that the code can
set to float `NaN` are `Option`-valued). -/
structure AnalysisResult where
  portfolio_name : String
  total_value : ℚ
  total_cost : ℚ
  total_return_pct : ℚ
  annualized_return_pct : ℝ
  volatility_pct : Option ℝ
  sharpe_ratio : Option ℝ
  max_drawdown_pct : ℚ
  beta : Option ℚ
  alpha_pct : Option ℝ
  currency : String
  holdings_analysis : List HoldingAnalysis
  benchmark_ticker : String

/-- Models `PortfolioAnalyzer._empty_result`: the degenerate result when no
holding has a resolvable price. -/
def emptyResult (p : Portfolio) (benchmark : String) : AnalysisResult :=
  { portfolio_name := p.name
    total_value := 0
    total_cost := p.total_cost
    total_return_pct := 0
    annualized_return_pct := 0
    volatility_pct := some 0
    sharpe_ratio := some 0
    max_drawdown_pct := 0
    beta := some 0
    alpha_pct := some 0
    currency := p.currency
    holdings_analysis := []
    benchmark_ticker := benchmark }

/-- Models `PortfolioAnalyzer.analyze` (benchmark default `"SPY"` is passed
explicitly here).  The fallible sub-computations are sequenced in source
order; `Except.error` models a raised exception escaping `analyze`. -/
noncomputable def analyze (m : MarketData) (p : Portfolio) (benchmark : String) :
    Except String AnalysisResult :=
  let holdings_data := gatherHoldingsData m p
  if holdings_data = [] then .ok (emptyResult p benchmark)
  else
    let total_value := (holdings_data.map HoldingData.market_value).sum
    let total_cost := (holdings_data.map fun h => h.avg_cost * h.quantity).sum
    Except.bind (buildAll total_value holdings_data) fun holdings_analysis =>
      Except.bind (computePortfolioReturns m holdings_analysis) fun portfolio_returns =>
        let benchmark_returns := getBenchmarkReturns m benchmark
        Except.bind (total_return total_cost total_value) fun total_ret =>
          Except.bind (annualized_return total_ret 1) fun ann_ret =>
            let vol := volatility portfolio_returns true
            let sr := sharpe_ratio portfolio_returns (1 / 50)
            Except.bind (computeMaxDrawdown m holdings_analysis) fun mdd =>
              let b := beta portfolio_returns benchmark_returns
              Except.bind (computeBenchmarkTotalReturn m benchmark) fun benchmark_total_ret =>
                .ok
                  { portfolio_name := p.name
                    total_value := total_value
                    total_cost := total_cost
                    total_return_pct := total_ret
                    annualized_return_pct := ann_ret
                    volatility_pct := vol.map fun v => v * 100
                    sharpe_ratio := sr
                    max_drawdown_pct := mdd
                    beta := b
                    alpha_pct := b.map fun bv =>
                      alpha ann_ret (benchmark_total_ret : ℝ) (bv : ℝ) (1 / 50)
                    currency := p.currency
                    holdings_analysis := holdings_analysis
                    benchmark_ticker := benchmark }

/-! ### Concrete instances used by witnesses and counterexamples -/

/-- A holding sitting exactly at its target weight (C1 witness input). -/
def haC1 : HoldingAnalysis := ⟨"A", "Alpha", 1, 1, 1, 50, 50, 0, "S"⟩

/-- Target-weight map for the C1 witness. -/
def twC1 : List (String × ℚ) := [("A", 50)]

/-- A holding 30 percentage points above target at price 10 (C2 witness
input): `diff_value = -30`, so it yields a SELL of 3 shares. -/
def haC2 : HoldingAnalysis := ⟨"A", "Alpha", 5, 6, 10, 50, 50, 0, "S"⟩

/-- Target-weight map for the C2 witness. -/
def twC2 : List (String × ℚ) := [("A", 20)]

/-- A holding sold at a gain of 4 per share (C3 witness input). -/
def haC3 : HoldingAnalysis := ⟨"A", "Alpha", 5, 6, 10, 50, 50, 0, "S"⟩

/-- Target-weight map for the C3 witness. -/
def twC3 : List (String × ℚ) := [("A", 20)]

/-- An out-of-band holding with a positive price (C10 witness input). -/
def haC10 : HoldingAnalysis := ⟨"A", "Alpha", 5, 6, 10, 50, 50, 0, "S"⟩

/-- Target-weight map for the C10 witness. -/
def twC10 : List (String × ℚ) := [("A", 20)]

/-- Market data for the C4 witness: one resolvable price, no history. -/
def mC4 : MarketData :=
  { current_price := fun t => if t = "AAPL" then some 10 else none
    sector := fun _ => "Tech"
    historical_prices := fun _ => [] }

/-- Portfolio for the C4 witness. -/
def pC4 : Portfolio :=
  { name := "P", holdings := [⟨"AAPL", "Apple", 5, 8, "USD"⟩], currency := "USD" }

/-- The holding analysis `analyze` produces for the C4 witness input. -/
def haC4 : HoldingAnalysis := ⟨"AAPL", "Apple", 5, 8, 10, 50, 100, 25, "Tech"⟩

/-- The analysis result `analyze` produces for the C4 witness input. -/
noncomputable def rC4 : AnalysisResult :=
  { portfolio_name := "P", total_value := 50, total_cost := 40, total_return_pct := 25,
    annualized_return_pct := 25, volatility_pct := some 0, sharpe_ratio := some 0,
    max_drawdown_pct := 0, beta := some 0, alpha_pct := some (25 - 1 / 50),
    currency := "USD", holdings_analysis := [haC4], benchmark_ticker := "SPY" }

/-- Market data for the C5 witness: no price is resolvable. -/
def mC5 : MarketData :=
  { current_price := fun _ => none
    sector := fun _ => "Unknown"
    historical_prices := fun _ => [] }

/-- Portfolio for the C5 witness. -/
def pC5 : Portfolio :=
  { name := "P", holdings := [⟨"AAPL", "Apple", 5, 8, "USD"⟩], currency := "USD" }

/-- Market data for the witness of the amended C6. -/
def mC6w : MarketData :=
  { current_price := fun t => if t = "AAPL" then some 10 else none
    sector := fun _ => "Tech"
    historical_prices := fun _ => [] }

/-- Portfolio for the witness of the amended C6 (distinct tickers, positive
quantities and cost bases as the loader's validators enforce). -/
def pC6w : Portfolio :=
  { name := "P", holdings := [⟨"AAPL", "Apple", 5, 8, "USD"⟩], currency := "USD" }

/-- Market data for the C6 counterexample: every price resolvable and
positive, every ticker with a two-point positive history — no missing or
partial data at all. -/
def mC6x : MarketData :=
  { current_price := fun _ => some 10
    sector := fun _ => "Tech"
    historical_prices := fun _ => [10, 11] }

/-- Portfolio for the C6 counterexample: two lots of the same ticker
(validator-conformant: positive quantities and cost bases; ticker
uniqueness is not validated anywhere). -/
def pC6x : Portfolio :=
  { name := "P"
    holdings := [⟨"AAPL", "Lot one", 1, 5, "USD"⟩, ⟨"AAPL", "Lot two", 2, 5, "USD"⟩]
    currency := "USD" }

/-! ### Helper lemmas -/

theorem obind_some {α β : Type} (a : α) (f : α → Option β) : (some a).bind f = f a := rfl

theorem obind_none {α β : Type} (f : α → Option β) : (Option.none).bind f = none := rfl

theorem ebind_ok {ε α β : Type} (a : α) (f : α → Except ε β) :
    Except.bind (.ok a) f = f a := rfl

theorem ebind_error {ε α β : Type} (e : ε) (f : α → Except ε β) :
    Except.bind (.error e) f = .error e := rfl

/-- A lookup in an association list without a binding for the key yields the
default `0`. -/
theorem dictGet_eq_zero_of_absent (tw : List (String × ℚ)) (t : String)
    (habs : ∀ w, (t, w) ∉ tw) : dictGet tw t = 0 := by
  induction tw with
  | nil => rfl
  | cons kv rest ih =>
    obtain ⟨k, v⟩ := kv
    by_cases hk : k = t
    · subst hk
      exact absurd (List.mem_cons_self _ _) (habs v)
    · simp only [dictGet, if_neg hk]
      exact ih fun w hw => habs w (List.mem_cons_of_mem _ hw)

/-- A holding inside the tolerance band is skipped: no order, no
accumulation. -/
theorem rebalanceStep_within (tw : List (String × ℚ)) (tv tol tr : ℚ)
    (h : HoldingAnalysis) (hw : |dictGet tw h.ticker - h.weight_pct| ≤ tol) :
    rebalanceStep tw tv tol tr h = some ⟨none, 0, 0, 0⟩ := by
  simp only [rebalanceStep]
  rw [if_pos hw]

/-- The step is defined whenever an out-of-band holding has a non-zero
price. -/
theorem rebalanceStep_isSome (tw : List (String × ℚ)) (tv tol tr : ℚ)
    (h : HoldingAnalysis)
    (hp : tol < |dictGet tw h.ticker - h.weight_pct| → h.current_price ≠ 0) :
    ∃ s, rebalanceStep tw tv tol tr h = some s := by
  simp only [rebalanceStep]
  split_ifs with h1 h2 h3 h4 h5
  · exact ⟨_, rfl⟩
  · exact absurd h2 (hp (lt_of_not_le h1))
  · exact ⟨_, rfl⟩
  · exact ⟨_, rfl⟩
  · exact ⟨_, rfl⟩
  · exact ⟨_, rfl⟩

/-- Full case analysis of an emitted order: the order's quantity is the
floored share count, it is non-zero, the price is the holding's (non-zero)
price, and the action and tax accrual are determined by the sign of
`diff_value`. -/
theorem rebalanceStep_order_spec (tw : List (String × ℚ)) (tv tol tr : ℚ)
    (h : HoldingAnalysis) (s : StepResult) (o : RebalanceOrder)
    (hs : rebalanceStep tw tv tol tr h = some s) (ho : s.order = some o) :
    h.current_price ≠ 0 ∧
    o.quantity = ⌊|diffValue tw tv h| / h.current_price⌋ ∧
    o.quantity ≠ 0 ∧
    ((o.action = "BUY" ∧ 0 < diffValue tw tv h ∧ s.tax = 0) ∨
      (o.action = "SELL" ∧ ¬0 < diffValue tw tv h ∧
        s.tax = if 0 < h.current_price - h.avg_cost ∧ 0 < tr then
          (o.quantity : ℚ) * (h.current_price - h.avg_cost) * tr else 0)) := by
  simp only [rebalanceStep] at hs
  split_ifs at hs with h1 h2 h3 h4 h5
  · obtain rfl := Option.some.inj hs
    exact absurd ho (by simp)
  · obtain rfl := Option.some.inj hs
    exact absurd ho (by simp)
  · obtain rfl := Option.some.inj hs
    obtain rfl := Option.some.inj ho
    exact ⟨h2, rfl, h3, Or.inl ⟨rfl, h4, rfl⟩⟩
  · obtain rfl := Option.some.inj hs
    obtain rfl := Option.some.inj ho
    refine ⟨h2, rfl, h3, Or.inr ⟨rfl, h4, ?_⟩⟩
    rw [if_pos h5]
  · obtain rfl := Option.some.inj hs
    obtain rfl := Option.some.inj ho
    refine ⟨h2, rfl, h3, Or.inr ⟨rfl, h4, ?_⟩⟩
    rw [if_neg h5]

/-- A holding whose floored share count is zero yields no order. -/
theorem rebalanceStep_zero_qty (tw : List (String × ℚ)) (tv tol tr : ℚ)
    (h : HoldingAnalysis) (s : StepResult)
    (hs : rebalanceStep tw tv tol tr h = some s)
    (hq : ⌊|diffValue tw tv h| / h.current_price⌋ = 0) : s.order = none := by
  simp only [rebalanceStep] at hs
  split_ifs at hs with h1 h2
  · obtain rfl := Option.some.inj hs; rfl
  · obtain rfl := Option.some.inj hs; rfl

/-- The tax accumulated by an iteration equals the specification's
`taxContribution` of the holding. -/
theorem rebalanceStep_tax_eq (tw : List (String × ℚ)) (tv tol tr : ℚ)
    (h : HoldingAnalysis) (s : StepResult)
    (hs : rebalanceStep tw tv tol tr h = some s) :
    s.tax = taxContribution tw tv tol tr h := by
  have hs0 := hs
  simp only [rebalanceStep] at hs
  split_ifs at hs with h1 h2 h3 h4 h5
  · obtain rfl := Option.some.inj hs
    simp [taxContribution, hs0, obind_some]
  · obtain rfl := Option.some.inj hs
    simp [taxContribution, hs0, obind_some]
  · obtain rfl := Option.some.inj hs
    simp [taxContribution, hs0, obind_some]
  · obtain rfl := Option.some.inj hs
    simp only [taxContribution, hs0, obind_some, Option.map_some', Option.getD_some]
    rw [if_pos ⟨by simp, h5.1, h5.2⟩]
  · obtain rfl := Option.some.inj hs
    simp only [taxContribution, hs0, obind_some, Option.map_some', Option.getD_some]
    rw [if_neg (by simpa using h5)]

/-- If every holding's iteration is defined, so is the whole loop. -/
theorem rebalanceAux_some_of_steps (tw : List (String × ℚ)) (tv tol tr : ℚ)
    (l : List HoldingAnalysis)
    (hst : ∀ h ∈ l, ∃ s, rebalanceStep tw tv tol tr h = some s) :
    ∃ acc, rebalanceAux tw tv tol tr l = some acc := by
  induction l with
  | nil => exact ⟨_, rfl⟩
  | cons h rest ih =>
    obtain ⟨s, hs⟩ := hst h (List.mem_cons_self _ _)
    obtain ⟨acc, hacc⟩ := ih fun h' hh => hst h' (List.mem_cons_of_mem _ hh)
    exact ⟨_, by rw [rebalanceAux, hs, obind_some, hacc, obind_some]⟩

/-- A successful loop means every iteration succeeded. -/
theorem rebalanceAux_steps (tw : List (String × ℚ)) (tv tol tr : ℚ)
    (l : List HoldingAnalysis) (acc : List RebalanceOrder × ℚ × ℚ × ℚ)
    (hl : rebalanceAux tw tv tol tr l = some acc) :
    ∀ h ∈ l, ∃ s, rebalanceStep tw tv tol tr h = some s := by
  induction l generalizing acc with
  | nil => simp
  | cons h rest ih =>
    rw [rebalanceAux] at hl
    cases hs : rebalanceStep tw tv tol tr h with
    | none => rw [hs] at hl; simp at hl
    | some s =>
      rw [hs, obind_some] at hl
      cases hrest : rebalanceAux tw tv tol tr rest with
      | none => rw [hrest] at hl; simp at hl
      | some acc2 =>
        intro h' hh
        rcases List.mem_cons.mp hh with rfl | hmem
        · exact ⟨s, hs⟩
        · exact ih acc2 hrest h' hmem

/-- Every order in the loop's output originates from some holding's
iteration. -/
theorem rebalanceAux_orders_mem (tw : List (String × ℚ)) (tv tol tr : ℚ)
    (l : List HoldingAnalysis) (acc : List RebalanceOrder × ℚ × ℚ × ℚ)
    (o : RebalanceOrder) (hl : rebalanceAux tw tv tol tr l = some acc)
    (ho : o ∈ acc.1) :
    ∃ h ∈ l, ∃ s, rebalanceStep tw tv tol tr h = some s ∧ s.order = some o := by
  induction l generalizing acc with
  | nil =>
    obtain rfl := Option.some.inj hl
    simp at ho
  | cons h rest ih =>
    rw [rebalanceAux] at hl
    cases hs : rebalanceStep tw tv tol tr h with
    | none => rw [hs] at hl; simp at hl
    | some s =>
      rw [hs, obind_some] at hl
      cases hrest : rebalanceAux tw tv tol tr rest with
      | none => rw [hrest] at hl; simp at hl
      | some acc2 =>
        rw [hrest, obind_some] at hl
        obtain rfl := Option.some.inj hl
        rcases List.mem_append.mp ho with hleft | hright
        · refine ⟨h, List.mem_cons_self _ _, s, hs, ?_⟩
          cases horder : s.order with
          | none => rw [horder] at hleft; simp at hleft
          | some o2 =>
            rw [horder] at hleft
            simp only [Option.toList_some, List.mem_singleton] at hleft
            rw [hleft]
        · obtain ⟨h', hh', hrest'⟩ := ih acc2 hrest hright
          exact ⟨h', List.mem_cons_of_mem _ hh', hrest'⟩

/-- The loop's accumulated tax is the sum of the per-holding
contributions. -/
theorem rebalanceAux_tax (tw : List (String × ℚ)) (tv tol tr : ℚ)
    (l : List HoldingAnalysis) (acc : List RebalanceOrder × ℚ × ℚ × ℚ)
    (hl : rebalanceAux tw tv tol tr l = some acc) :
    acc.2.2.2 = (l.map (taxContribution tw tv tol tr)).sum := by
  induction l generalizing acc with
  | nil =>
    obtain rfl := Option.some.inj hl
    simp
  | cons h rest ih =>
    rw [rebalanceAux] at hl
    cases hs : rebalanceStep tw tv tol tr h with
    | none => rw [hs] at hl; simp at hl
    | some s =>
      rw [hs, obind_some] at hl
      cases hrest : rebalanceAux tw tv tol tr rest with
      | none => rw [hrest] at hl; simp at hl
      | some acc2 =>
        rw [hrest, obind_some] at hl
        obtain rfl := Option.some.inj hl
        simp only [List.map_cons, List.sum_cons]
        rw [ih acc2 hrest, rebalanceStep_tax_eq tw tv tol tr h s hs]

/-- A holding's tax contribution is nonnegative when its price is
nonnegative. -/
theorem taxContribution_nonneg (tw : List (String × ℚ)) (tv tol tr : ℚ)
    (h : HoldingAnalysis) (hp : 0 ≤ h.current_price) :
    0 ≤ taxContribution tw tv tol tr h := by
  unfold taxContribution
  cases hs : rebalanceStep tw tv tol tr h with
  | none => simp
  | some s =>
    simp only [obind_some]
    cases ho : s.order with
    | none => simp
    | some o =>
      simp only [Option.map_some', Option.getD_some]
      split_ifs with hc
      · obtain ⟨hsell, hgain, htr⟩ := hc
        obtain ⟨hpne, hqeq, hqne, _⟩ := rebalanceStep_order_spec tw tv tol tr h s o hs ho
        have hppos : 0 < h.current_price := lt_of_le_of_ne hp (Ne.symm hpne)
        have hq0 : (0 : ℤ) ≤ o.quantity := by
          rw [hqeq]
          exact Int.floor_nonneg.mpr (div_nonneg (abs_nonneg _) hppos.le)
        have hq0' : (0 : ℚ) ≤ (o.quantity : ℚ) := by exact_mod_cast hq0
        exact mul_nonneg (mul_nonneg hq0' hgain.le) htr.le
      · exact le_refl 0

/-- A holding sold at a loss (or break-even) contributes nothing to the
estimated tax, whatever the tax rate. -/
theorem taxContribution_eq_zero_of_loss (tw : List (String × ℚ)) (tv tol tr : ℚ)
    (h : HoldingAnalysis) (hloss : h.current_price - h.avg_cost ≤ 0) :
    taxContribution tw tv tol tr h = 0 := by
  unfold taxContribution
  cases hs : rebalanceStep tw tv tol tr h with
  | none => simp
  | some s =>
    simp only [obind_some]
    cases ho : s.order with
    | none => simp
    | some o =>
      simp only [Option.map_some', Option.getD_some]
      rw [if_neg]
      rintro ⟨-, hgain, -⟩
      exact absurd hgain (not_lt.mpr hloss)

/-- A holding on the BUY side (`diff_value > 0`) contributes nothing to the
estimated tax. -/
theorem taxContribution_eq_zero_of_buy (tw : List (String × ℚ)) (tv tol tr : ℚ)
    (h : HoldingAnalysis) (hbuy : 0 < diffValue tw tv h) :
    taxContribution tw tv tol tr h = 0 := by
  unfold taxContribution
  cases hs : rebalanceStep tw tv tol tr h with
  | none => simp
  | some s =>
    simp only [obind_some]
    cases ho : s.order with
    | none => simp
    | some o =>
      simp only [Option.map_some', Option.getD_some]
      obtain ⟨-, -, -, hcase⟩ := rebalanceStep_order_spec tw tv tol tr h s o hs ho
      rcases hcase with ⟨hact, -, -⟩ | ⟨-, hnd, -⟩
      · rw [if_neg]
        rintro ⟨hsell, -, -⟩
        rw [hact] at hsell
        exact absurd hsell (by simp)
      · exact absurd hbuy hnd

/-- C1: a holding whose target percent (0 for tickers absent from the map)
differs from its weight by at most the tolerance is skipped and gets no
order; when every holding is within tolerance, `rebalance` returns a result
with an empty order list (not an error). -/
theorem rebalance_skips_within_tolerance (holdings : List HoldingAnalysis)
    (tw : List (String × ℚ)) (tv tol tr : ℚ) :
    (∀ t : String, (∀ w, (t, w) ∉ tw) → dictGet tw t = 0) ∧
    (∀ h : HoldingAnalysis, |dictGet tw h.ticker - h.weight_pct| ≤ tol →
      rebalanceStep tw tv tol tr h = some ⟨none, 0, 0, 0⟩) ∧
    ((∀ h ∈ holdings, |dictGet tw h.ticker - h.weight_pct| ≤ tol) →
      rebalance holdings tw tv tol tr = some ⟨[], 0, 0, 0, 0⟩) := by
  refine ⟨fun t => dictGet_eq_zero_of_absent tw t,
    fun h => rebalanceStep_within tw tv tol tr h, fun hall => ?_⟩
  have haux : ∀ l : List HoldingAnalysis,
      (∀ h ∈ l, |dictGet tw h.ticker - h.weight_pct| ≤ tol) →
      rebalanceAux tw tv tol tr l = some ([], 0, 0, 0) := by
    intro l hl
    induction l with
    | nil => rfl
    | cons h rest ih =>
      rw [rebalanceAux, rebalanceStep_within tw tv tol tr h (hl h (List.mem_cons_self _ _)),
        obind_some, ih fun h' hh => hl h' (List.mem_cons_of_mem _ hh), obind_some]
      simp
  rw [rebalance, haux holdings hall, Option.map_some']
  norm_num

/-- C2: every emitted order's quantity is the floor of
`|diff_value| / current_price` for its holding, and is at least 1; a holding
whose floored quantity is 0 yields no order.  Prices are nonnegative per the
data-model invariant on monetary fields. -/
theorem rebalance_order_quantities (holdings : List HoldingAnalysis)
    (tw : List (String × ℚ)) (tv tol tr : ℚ) (r : RebalanceResult)
    (hp : ∀ h ∈ holdings, 0 ≤ h.current_price)
    (hr : rebalance holdings tw tv tol tr = some r) :
    (∀ o ∈ r.orders, (∃ h ∈ holdings,
        o.quantity = ⌊|diffValue tw tv h| / h.current_price⌋) ∧ 1 ≤ o.quantity) ∧
    (∀ h ∈ holdings, ∀ s, rebalanceStep tw tv tol tr h = some s →
      ⌊|diffValue tw tv h| / h.current_price⌋ = 0 → s.order = none) := by
  rw [rebalance] at hr
  cases hacc : rebalanceAux tw tv tol tr holdings with
  | none => rw [hacc] at hr; simp at hr
  | some acc =>
    rw [hacc, Option.map_some'] at hr
    obtain rfl := Option.some.inj hr
    constructor
    · intro o ho
      obtain ⟨h, hh, s, hs, hord⟩ :=
        rebalanceAux_orders_mem tw tv tol tr holdings acc o hacc ho
      obtain ⟨hpne, hqeq, hqne, -⟩ := rebalanceStep_order_spec tw tv tol tr h s o hs hord
      have hppos : 0 < h.current_price := lt_of_le_of_ne (hp h hh) (Ne.symm hpne)
      have hq0 : (0 : ℤ) ≤ o.quantity := by
        rw [hqeq]
        exact Int.floor_nonneg.mpr (div_nonneg (abs_nonneg _) hppos.le)
      exact ⟨⟨h, hh, hqeq⟩, by omega⟩
    · intro h hh s hs hq
      exact rebalanceStep_zero_qty tw tv tol tr h s hs hq

/-- C3: the result's estimated tax is exactly the sum, over the holdings, of
`quantity * gain_per_share * tax_rate` for those yielding a SELL order with
strictly positive gain and `tax_rate > 0`; losing SELLs and BUYs contribute
0, and the total is nonnegative. -/
theorem rebalance_estimated_tax (holdings : List HoldingAnalysis)
    (tw : List (String × ℚ)) (tv tol tr : ℚ) (r : RebalanceResult)
    (hp : ∀ h ∈ holdings, 0 ≤ h.current_price)
    (hr : rebalance holdings tw tv tol tr = some r) :
    r.estimated_tax = (holdings.map (taxContribution tw tv tol tr)).sum ∧
    (∀ h ∈ holdings, h.current_price - h.avg_cost ≤ 0 →
      taxContribution tw tv tol tr h = 0) ∧
    (∀ h ∈ holdings, 0 < diffValue tw tv h → taxContribution tw tv tol tr h = 0) ∧
    0 ≤ r.estimated_tax := by
  rw [rebalance] at hr
  cases hacc : rebalanceAux tw tv tol tr holdings with
  | none => rw [hacc] at hr; simp at hr
  | some acc =>
    rw [hacc, Option.map_some'] at hr
    obtain rfl := Option.some.inj hr
    have hsum : acc.2.2.2 = (holdings.map (taxContribution tw tv tol tr)).sum :=
      rebalanceAux_tax tw tv tol tr holdings acc hacc
    refine ⟨hsum, fun h _ => taxContribution_eq_zero_of_loss tw tv tol tr h,
      fun h _ => taxContribution_eq_zero_of_buy tw tv tol tr h, ?_⟩
    show (0 : ℚ) ≤ acc.2.2.2
    rw [hsum]
    apply List.sum_nonneg
    intro x hx
    obtain ⟨h, hh, rfl⟩ := List.mem_map.mp hx
    exact taxContribution_nonneg tw tv tol tr h (hp h hh)

/-- C10: when every holding outside its tolerance band has a strictly
positive price, the share-quantity division is well-defined everywhere and
`rebalance` returns a result (no `ZeroDivisionError`). -/
theorem rebalance_defined (holdings : List HoldingAnalysis)
    (tw : List (String × ℚ)) (tv tol tr : ℚ)
    (hp : ∀ h ∈ holdings, tol < |dictGet tw h.ticker - h.weight_pct| →
      0 < h.current_price) :
    ∃ r, rebalance holdings tw tv tol tr = some r := by
  obtain ⟨acc, hacc⟩ := rebalanceAux_some_of_steps tw tv tol tr holdings fun h hh =>
    rebalanceStep_isSome tw tv tol tr h fun hout => ne_of_gt (hp h hh hout)
  exact ⟨_, by rw [rebalance, hacc, Option.map_some']⟩

/-- Witness for C1 at a concrete within-band holding: no order for the
holding, and an empty result overall. -/
theorem rebalance_skips_within_tolerance_witness :
    rebalanceStep twC1 100 1 0 haC1 = some ⟨none, 0, 0, 0⟩ ∧
    rebalance [haC1] twC1 100 1 0 = some ⟨[], 0, 0, 0, 0⟩ := by
  have hw : |dictGet twC1 haC1.ticker - haC1.weight_pct| ≤ 1 := by
    simp [dictGet, twC1, haC1]
  exact ⟨(rebalance_skips_within_tolerance [haC1] twC1 100 1 0).2.1 haC1 hw,
    (rebalance_skips_within_tolerance [haC1] twC1 100 1 0).2.2 fun h hh => by
      rw [List.mem_singleton] at hh
      rw [hh]
      exact hw⟩

/-- Witness for C2 at a concrete overweight holding that yields a SELL of 3
shares. -/
theorem rebalance_order_quantities_witness :
    ∃ r, rebalance [haC2] twC2 100 1 0 = some r ∧
      ∀ o ∈ r.orders, (∃ h ∈ [haC2],
        o.quantity = ⌊|diffValue twC2 100 h| / h.current_price⌋) ∧ 1 ≤ o.quantity := by
  have hp : ∀ h ∈ [haC2], (0 : ℚ) ≤ h.current_price := by
    intro h hh
    rw [List.mem_singleton] at hh
    rw [hh]
    norm_num [haC2]
  have hr : rebalance [haC2] twC2 100 1 0 =
      some ⟨[⟨"A", "Alpha", "SELL", 3, 10, -30⟩], 0, 30, -30, 0⟩ := by
    have hstep : rebalanceStep twC2 100 1 0 haC2 =
        some ⟨some ⟨"A", "Alpha", "SELL", 3, 10, -30⟩, 0, 30, 0⟩ := by
      simp only [rebalanceStep, haC2, twC2, dictGet, diffValue]
      norm_num
    rw [rebalance, rebalanceAux, hstep, obind_some, rebalanceAux, obind_some,
      Option.map_some']
    norm_num
  exact ⟨_, hr, (rebalance_order_quantities [haC2] twC2 100 1 0 _ hp hr).1⟩

/-- Witness for C3 at a concrete profitable SELL with tax rate 1/5: the
accumulated tax is the specification's sum and is nonnegative. -/
theorem rebalance_estimated_tax_witness :
    ∃ r, rebalance [haC3] twC3 100 1 (1 / 5) = some r ∧
      r.estimated_tax = ([haC3].map (taxContribution twC3 100 1 (1 / 5))).sum ∧
      0 ≤ r.estimated_tax := by
  have hp : ∀ h ∈ [haC3], (0 : ℚ) ≤ h.current_price := by
    intro h hh
    rw [List.mem_singleton] at hh
    rw [hh]
    norm_num [haC3]
  have hr : rebalance [haC3] twC3 100 1 (1 / 5) =
      some ⟨[⟨"A", "Alpha", "SELL", 3, 10, -30⟩], 0, 30, -30, 12 / 5⟩ := by
    have hstep : rebalanceStep twC3 100 1 (1 / 5) haC3 =
        some ⟨some ⟨"A", "Alpha", "SELL", 3, 10, -30⟩, 0, 30, 12 / 5⟩ := by
      simp only [rebalanceStep, haC3, twC3, dictGet, diffValue]
      norm_num
    rw [rebalance, rebalanceAux, hstep, obind_some, rebalanceAux, obind_some,
      Option.map_some']
    norm_num
  obtain ⟨h1, -, -, h4⟩ := rebalance_estimated_tax [haC3] twC3 100 1 (1 / 5) _ hp hr
  exact ⟨_, hr, h1, h4⟩

/-- Witness for C10 at a concrete out-of-band holding with positive price:
`rebalance` is defined. -/
theorem rebalance_defined_witness :
    ∃ r, rebalance [haC10] twC10 100 1 0 = some r :=
  rebalance_defined [haC10] twC10 100 1 0 fun h hh _ => by
    rw [List.mem_singleton] at hh
    rw [hh]
    norm_num [haC10]

/-- Zipping a list with itself pairs each element with itself. -/
theorem list_zip_self {α : Type} (x : List α) : x.zip x = x.map fun a => (a, a) := by
  induction x with
  | nil => rfl
  | cons a rest ih => simp [List.zip_cons_cons, ih]

/-- The self-covariance of a series is its sample variance. -/
theorem sampleCov_self (x : List ℚ) : sampleCov x x = sampleVar x := by
  unfold sampleCov sampleVar
  by_cases hx : 2 ≤ x.length
  · rw [if_pos ⟨hx, hx⟩, if_pos hx]
    unfold sampleVarQ
    congr 1
    simp [list_zip_self, List.map_map, Function.comp_def, sq]
  · rw [if_neg (by tauto), if_neg hx]

/-- A series with two distinct members has length at least two and strictly
positive sample variance. -/
theorem sampleVarQ_pos (x : List ℚ) (a b : ℚ) (ha : a ∈ x) (hb : b ∈ x)
    (hab : a ≠ b) : 2 ≤ x.length ∧ 0 < sampleVarQ x := by
  have hlen : 2 ≤ x.length := by
    match x, ha with
    | [c], ha =>
      rw [List.mem_singleton] at ha
      rw [List.mem_singleton] at hb
      exact absurd (ha.trans hb.symm) hab
    | c1 :: c2 :: rest, _ => simp
  refine ⟨hlen, ?_⟩
  unfold sampleVarQ
  apply div_pos
  · obtain ⟨v, hv, hvm⟩ : ∃ v ∈ x, v ≠ listMean x := by
      by_contra hcon
      push_neg at hcon
      exact hab ((hcon a ha).trans (hcon b hb).symm)
    have hmem : (v - listMean x) ^ 2 ∈ x.map fun v => (v - listMean x) ^ 2 :=
      List.mem_map_of_mem _ hv
    have hpos : 0 < (v - listMean x) ^ 2 :=
      pow_two_pos_of_ne_zero (sub_ne_zero.mpr hvm)
    have hle : (v - listMean x) ^ 2 ≤ (x.map fun v => (v - listMean x) ^ 2).sum :=
      List.single_le_sum (fun y hy => by
        obtain ⟨w, -, rfl⟩ := List.mem_map.mp hy
        positivity) _ hmem
    linarith
  · have : (2 : ℚ) ≤ (x.length : ℚ) := by exact_mod_cast hlen
    linarith

/-- C7: `total_return` returns `(final−initial)/initial×100` exactly when
`initial > 0` and raises the domain error exactly when `initial ≤ 0`; the
spec's concrete cases hold exactly, and `total_return(0, x)` raises for
every `x`. -/
theorem total_return_spec (i f : ℚ) :
    (0 < i → total_return i f = .ok ((f - i) / i * 100)) ∧
    (i ≤ 0 → total_return i f = .error ("Initial value must be positive")) ∧
    total_return 100 120 = .ok 20 ∧
    total_return 100 80 = .ok (-20) ∧
    (∀ x : ℚ, total_return 0 x = .error ("Initial value must be positive")) := by
  refine ⟨fun hi => ?_, fun hi => ?_, ?_, ?_, fun x => ?_⟩
  · rw [total_return, if_neg (not_le.mpr hi)]
  · rw [total_return, if_pos hi]
  · rw [total_return, if_neg (by norm_num)]
    norm_num
  · rw [total_return, if_neg (by norm_num)]
    norm_num
  · rw [total_return, if_pos (le_refl 0)]

/-- Witness for C7 at concrete inputs on both sides of the domain check. -/
theorem total_return_spec_witness :
    total_return 2 3 = .ok ((3 - 2) / 2 * 100) ∧
    total_return (-1) 5 = .error ("Initial value must be positive") :=
  ⟨(total_return_spec 2 3).1 (by norm_num), (total_return_spec (-1) 5).2.1 (by norm_num)⟩

/-- C8 counterexample: on the one-element series `[1]` both `volatility`
variants are float `NaN` (modelled `none`), so the claimed equality between
them fails (`NaN` compares unequal to everything); the claim is false for
this non-empty series. -/
theorem volatility_singleton_nan :
    ([(1 : ℚ)] ≠ ([] : List ℚ)) ∧
    volatility [1] true = none ∧ volatility [1] false = none ∧
    ¬∃ a b : ℝ, volatility [1] true = some a ∧ volatility [1] false = some b ∧
      a = b * Real.sqrt 252 := by
  have htrue : volatility [1] true = none := by simp [volatility, sampleStd]
  refine ⟨by simp, htrue, by simp [volatility, sampleStd], ?_⟩
  rintro ⟨a, b, ha, -, -⟩
  rw [htrue] at ha
  cases ha

/-- C8 (amended): for every return series with at least two observations the
annualized volatility is the plain volatility times `sqrt 252` exactly, and
the volatility of the empty series is 0. -/
theorem volatility_annualization (r : List ℚ) (hr : 2 ≤ r.length) :
    (∃ s : ℝ, volatility r false = some s ∧
      volatility r true = some (s * Real.sqrt 252)) ∧
    (∀ an : Bool, volatility [] an = some 0) := by
  have hne : r ≠ [] := by
    intro h
    rw [h] at hr
    simp at hr
  refine ⟨⟨Real.sqrt (sampleVarQ r), ?_, ?_⟩, fun an => by simp [volatility]⟩
  · simp [volatility, hne, sampleStd, hr]
  · simp [volatility, hne, sampleStd, hr]

/-- Witness for the amended C8 at the two-element series `[0, 1]`. -/
theorem volatility_annualization_witness :
    (∃ s : ℝ, volatility [0, 1] false = some s ∧
      volatility [0, 1] true = some (s * Real.sqrt 252)) ∧
    (∀ an : Bool, volatility [] an = some 0) :=
  volatility_annualization [0, 1] (by norm_num)

/-- C9: `beta` is the sample covariance over sample variance of the two
series truncated positionally to their common length; it returns 0 when
either series is empty or the truncated benchmark variance is exactly 0; and
for any series with two distinct values, `beta(x, x) = 1` exactly. -/
theorem beta_spec :
    (∀ p b : List ℚ, p = [] ∨ b = [] → beta p b = some 0) ∧
    (∀ p b : List ℚ, p ≠ [] → b ≠ [] →
      sampleVar (b.take (min p.length b.length)) = some 0 → beta p b = some 0) ∧
    (∀ p b : List ℚ, ∀ c v : ℚ, p ≠ [] → b ≠ [] →
      sampleCov (p.take (min p.length b.length)) (b.take (min p.length b.length)) =
        some c →
      sampleVar (b.take (min p.length b.length)) = some v → v ≠ 0 →
      beta p b = some (c / v)) ∧
    (∀ x : List ℚ, ∀ a b : ℚ, a ∈ x → b ∈ x → a ≠ b → beta x x = some 1) := by
  have hvar_some : ∀ b : List ℚ, ∀ v : ℚ, ∀ n : ℕ, sampleVar (b.take n) = some v →
      2 ≤ (b.take n).length := by
    intro b v n hv
    unfold sampleVar at hv
    by_cases h2 : 2 ≤ (b.take n).length
    · exact h2
    · rw [if_neg h2] at hv
      cases hv
  have hmain : ∀ p b : List ℚ, ∀ c v : ℚ, p ≠ [] → b ≠ [] →
      sampleCov (p.take (min p.length b.length)) (b.take (min p.length b.length)) =
        some c →
      sampleVar (b.take (min p.length b.length)) = some v →
      beta p b = some (if v = 0 then 0 else c / v) := by
    intro p b c v hp hb hcov hvar
    simp only [beta]
    rw [if_neg (by tauto), hcov, hvar]
    split_ifs with hv
    · subst hv
      simp
    · simp [hv]
  refine ⟨fun p b h => by unfold beta; rw [if_pos h], ?_, ?_, ?_⟩
  · intro p b hp hb hvar
    have h2 : 2 ≤ (b.take (min p.length b.length)).length := hvar_some b 0 _ hvar
    have h2p : 2 ≤ (p.take (min p.length b.length)).length := by
      rw [List.length_take] at h2 ⊢
      omega
    obtain ⟨cv, hcov⟩ : ∃ cv, sampleCov (p.take (min p.length b.length))
        (b.take (min p.length b.length)) = some cv :=
      ⟨_, by unfold sampleCov; rw [if_pos ⟨h2p, h2⟩]⟩
    rw [hmain p b cv 0 hp hb hcov hvar, if_pos rfl]
  · intro p b c v hp hb hcov hvar hv
    rw [hmain p b c v hp hb hcov hvar, if_neg hv]
  · intro x a b ha hb hab
    have hx : x ≠ [] := List.ne_nil_of_mem ha
    obtain ⟨h2, hvpos⟩ := sampleVarQ_pos x a b ha hb hab
    have htake : x.take (min x.length x.length) = x := by
      rw [min_self, List.take_length]
    have hvar : sampleVar (x.take (min x.length x.length)) = some (sampleVarQ x) := by
      rw [htake]
      unfold sampleVar
      rw [if_pos h2]
    have hcov : sampleCov (x.take (min x.length x.length))
        (x.take (min x.length x.length)) = some (sampleVarQ x) := by
      rw [htake, sampleCov_self]
      unfold sampleVar
      rw [if_pos h2]
    rw [hmain x x (sampleVarQ x) (sampleVarQ x) hx hx hcov hvar,
      if_neg (ne_of_gt hvpos), div_self (ne_of_gt hvpos)]

/-- Witness for C9: `beta` of the non-constant series `[1, 2]` against itself
is exactly 1, and `beta` with an empty side is 0. -/
theorem beta_spec_witness :
    beta [1, 2] [1, 2] = some 1 ∧ beta [] [3] = some 0 :=
  ⟨beta_spec.2.2.2 [1, 2] 1 2 (by simp) (by simp) (by norm_num),
    beta_spec.1 [] [3] (Or.inl rfl)⟩

/-- At most one `HoldingData` per portfolio holding. -/
theorem gather_length_le (m : MarketData) (p : Portfolio) :
    (gatherHoldingsData m p).length ≤ p.holdings.length :=
  List.length_filterMap_le _ _

/-- Every gathered entry comes from a portfolio holding with a resolvable
price, carrying over its fields. -/
theorem gather_mem (m : MarketData) (p : Portfolio) (hd : HoldingData)
    (hmem : hd ∈ gatherHoldingsData m p) :
    ∃ h ∈ p.holdings, ∃ price, m.current_price h.ticker = some price ∧
      hd = ⟨h.ticker, h.name, h.quantity, h.avg_cost, price, h.quantity * price,
            m.sector h.ticker⟩ := by
  obtain ⟨h, hh, hf⟩ := List.mem_filterMap.mp hmem
  refine ⟨h, hh, ?_⟩
  unfold gatherOne at hf
  cases hcp : m.current_price h.ticker with
  | none => rw [hcp] at hf; cases hf
  | some price =>
    rw [hcp] at hf
    exact ⟨price, rfl, (Option.some.inj hf).symm⟩

/-- The `filterMap` behind `_gather_holdings_data` is empty when no listed
holding has a resolvable price. -/
theorem gatherList_eq_nil (m : MarketData) (l : List Holding)
    (hnone : ∀ h ∈ l, m.current_price h.ticker = none) :
    l.filterMap (gatherOne m) = [] := by
  induction l with
  | nil => rfl
  | cons h rest ih =>
    rw [List.filterMap_cons]
    have hg : gatherOne m h = none := by
      unfold gatherOne
      rw [hnone h (List.mem_cons_self _ _)]
    rw [hg]
    exact ih fun h' hh => hnone h' (List.mem_cons_of_mem _ hh)

/-- When no holding has a resolvable price, nothing is gathered. -/
theorem gather_eq_nil (m : MarketData) (p : Portfolio)
    (hnone : ∀ h ∈ p.holdings, m.current_price h.ticker = none) :
    gatherHoldingsData m p = [] :=
  gatherList_eq_nil m p.holdings hnone

/-- The tickers of the `filterMap` behind `_gather_holdings_data` form a
sublist of the input tickers. -/
theorem gatherList_tickers_sublist (m : MarketData) (l : List Holding) :
    ((l.filterMap (gatherOne m)).map HoldingData.ticker).Sublist
      (l.map Holding.ticker) := by
  induction l with
  | nil => simp
  | cons h rest ih =>
    rw [List.filterMap_cons, List.map_cons]
    cases hg : gatherOne m h with
    | none => exact ih.cons _
    | some hd =>
      rw [List.map_cons]
      have htick : hd.ticker = h.ticker := by
        unfold gatherOne at hg
        cases hcp : m.current_price h.ticker with
        | none => rw [hcp] at hg; cases hg
        | some price => rw [hcp] at hg; rw [← Option.some.inj hg]
      rw [htick]
      exact ih.cons₂ _

/-- The gathered tickers form a sublist of the portfolio's tickers (so
distinctness is preserved). -/
theorem gather_tickers_sublist (m : MarketData) (p : Portfolio) :
    ((gatherHoldingsData m p).map HoldingData.ticker).Sublist
      (p.holdings.map Holding.ticker) :=
  gatherList_tickers_sublist m p.holdings

/-- `buildHoldingAnalysis` succeeds exactly on a non-zero cost basis, and its
output's fields. -/
theorem buildHoldingAnalysis_ok (tv : ℚ) (h : HoldingData) (a : HoldingAnalysis)
    (hb : buildHoldingAnalysis tv h = .ok a) :
    h.avg_cost ≠ 0 ∧
    a = { ticker := h.ticker, name := h.name, quantity := h.quantity,
          avg_cost := h.avg_cost, current_price := h.current_price,
          market_value := h.market_value,
          weight_pct := if 0 < tv then h.market_value / tv * 100 else 0,
          return_pct := (h.current_price - h.avg_cost) / h.avg_cost * 100,
          sector := h.sector } := by
  unfold buildHoldingAnalysis at hb
  by_cases hc : h.avg_cost = 0
  · rw [if_pos hc] at hb
    cases hb
  · rw [if_neg hc] at hb
    exact ⟨hc, (Except.ok.inj hb).symm⟩

/-- `buildAll` preserves the list length. -/
theorem buildAll_length (tv : ℚ) (l : List HoldingData) (l' : List HoldingAnalysis)
    (hb : buildAll tv l = .ok l') : l'.length = l.length := by
  induction l generalizing l' with
  | nil =>
    obtain rfl := Except.ok.inj hb
    rfl
  | cons h rest ih =>
    rw [buildAll] at hb
    cases hba : buildHoldingAnalysis tv h with
    | error e => rw [hba, ebind_error] at hb; cases hb
    | ok a =>
      rw [hba, ebind_ok] at hb
      cases hrest : buildAll tv rest with
      | error e => rw [hrest, ebind_error] at hb; cases hb
      | ok as =>
        rw [hrest, ebind_ok] at hb
        obtain rfl := Except.ok.inj hb
        simp [ih as hrest]

/-- Every entry of a successful `buildAll` comes from one input entry. -/
theorem buildAll_mem (tv : ℚ) (l : List HoldingData) (l' : List HoldingAnalysis)
    (a : HoldingAnalysis) (hb : buildAll tv l = .ok l') (ha : a ∈ l') :
    ∃ h ∈ l, buildHoldingAnalysis tv h = .ok a := by
  induction l generalizing l' with
  | nil =>
    obtain rfl := Except.ok.inj hb
    cases ha
  | cons h rest ih =>
    rw [buildAll] at hb
    cases hba : buildHoldingAnalysis tv h with
    | error e => rw [hba, ebind_error] at hb; cases hb
    | ok a2 =>
      rw [hba, ebind_ok] at hb
      cases hrest : buildAll tv rest with
      | error e => rw [hrest, ebind_error] at hb; cases hb
      | ok as =>
        rw [hrest, ebind_ok] at hb
        obtain rfl := Except.ok.inj hb
        rcases List.mem_cons.mp ha with rfl | hmem
        · exact ⟨h, List.mem_cons_self _ _, hba⟩
        · obtain ⟨h', hh', hb'⟩ := ih as hrest hmem
          exact ⟨h', List.mem_cons_of_mem _ hh', hb'⟩

/-- `buildAll` succeeds when every cost basis is non-zero. -/
theorem buildAll_ok (tv : ℚ) (l : List HoldingData)
    (hc : ∀ h ∈ l, h.avg_cost ≠ 0) : ∃ l', buildAll tv l = .ok l' := by
  induction l with
  | nil => exact ⟨[], rfl⟩
  | cons h rest ih =>
    obtain ⟨l', hl'⟩ := ih fun h' hh => hc h' (List.mem_cons_of_mem _ hh)
    obtain ⟨a, hba⟩ : ∃ a, buildHoldingAnalysis tv h = .ok a :=
      ⟨_, by unfold buildHoldingAnalysis; rw [if_neg (hc h (List.mem_cons_self _ _))]⟩
    exact ⟨a :: l', by rw [buildAll, hba, ebind_ok, hl', ebind_ok]⟩

/-- `buildAll` preserves tickers. -/
theorem buildAll_map_ticker (tv : ℚ) (l : List HoldingData)
    (l' : List HoldingAnalysis) (hb : buildAll tv l = .ok l') :
    l'.map HoldingAnalysis.ticker = l.map HoldingData.ticker := by
  induction l generalizing l' with
  | nil =>
    obtain rfl := Except.ok.inj hb
    rfl
  | cons h rest ih =>
    rw [buildAll] at hb
    cases hba : buildHoldingAnalysis tv h with
    | error e => rw [hba, ebind_error] at hb; cases hb
    | ok a =>
      rw [hba, ebind_ok] at hb
      cases hrest : buildAll tv rest with
      | error e => rw [hrest, ebind_error] at hb; cases hb
      | ok as =>
        rw [hrest, ebind_ok] at hb
        obtain rfl := Except.ok.inj hb
        obtain ⟨-, rfl⟩ := buildHoldingAnalysis_ok tv h a hba
        simp [ih as hrest]

/-- With a positive total value, the weights of a successful `buildAll` sum
to `(sum of market values) / total * 100`. -/
theorem buildAll_weight_sum (tv : ℚ) (l : List HoldingData)
    (l' : List HoldingAnalysis) (hb : buildAll tv l = .ok l') (htv : 0 < tv) :
    (l'.map HoldingAnalysis.weight_pct).sum =
      (l.map HoldingData.market_value).sum / tv * 100 := by
  induction l generalizing l' with
  | nil =>
    obtain rfl := Except.ok.inj hb
    simp
  | cons h rest ih =>
    rw [buildAll] at hb
    cases hba : buildHoldingAnalysis tv h with
    | error e => rw [hba, ebind_error] at hb; cases hb
    | ok a =>
      rw [hba, ebind_ok] at hb
      cases hrest : buildAll tv rest with
      | error e => rw [hrest, ebind_error] at hb; cases hb
      | ok as =>
        rw [hrest, ebind_ok] at hb
        obtain rfl := Except.ok.inj hb
        obtain ⟨-, rfl⟩ := buildHoldingAnalysis_ok tv h a hba
        simp only [List.map_cons, List.sum_cons, ih as hrest, if_pos htv]
        rw [add_div, add_mul]

/-- Membership is unchanged by dict-key deduplication. -/
theorem mem_dedupKeys (a : String) (l : List String) :
    a ∈ dedupKeys l ↔ a ∈ l := by
  induction l with
  | nil => simp [dedupKeys]
  | cons t rest ih =>
    simp only [dedupKeys, List.mem_cons, List.mem_filter]
    constructor
    · rintro (rfl | ⟨hmem, -⟩)
      · exact Or.inl rfl
      · exact Or.inr (ih.mp hmem)
    · rintro (rfl | hmem)
      · exact Or.inl rfl
      · by_cases hat : a = t
        · exact Or.inl hat
        · exact Or.inr ⟨ih.mpr hmem, by simpa using hat⟩

/-- Deduplication is the identity on lists without duplicates. -/
theorem dedupKeys_eq_self (l : List String) (hnd : l.Nodup) : dedupKeys l = l := by
  induction l with
  | nil => rfl
  | cons t rest ih =>
    obtain ⟨hnotmem, hrest⟩ := List.nodup_cons.mp hnd
    rw [dedupKeys, ih hrest, List.filter_eq_self.mpr]
    intro a ha
    have hne : a ≠ t := fun heq => hnotmem (heq ▸ ha)
    simpa using hne

/-- A `filterMap` keeping `f` of the elements satisfying `q` is the mapped
filter. -/
theorem filterMap_pos_if {α β : Type} (l : List α) (q : α → Prop) [DecidablePred q]
    (f : α → β) :
    (l.filterMap fun x => if q x then some (f x) else none) =
      (l.filter fun x => decide (q x)).map f := by
  induction l with
  | nil => rfl
  | cons x rest ih =>
    rw [List.filterMap_cons, List.filter_cons]
    by_cases hx : q x
    · simp [hx, ih]
    · simp [hx, ih]

/-- A `filterMap` keeping `f` of the elements violating `q` is the mapped
negative filter. -/
theorem filterMap_neg_if {α β : Type} (l : List α) (q : α → Prop) [DecidablePred q]
    (f : α → β) :
    (l.filterMap fun x => if q x then none else some (f x)) =
      (l.filter fun x => !decide (q x)).map f := by
  induction l with
  | nil => rfl
  | cons x rest ih =>
    rw [List.filterMap_cons, List.filter_cons]
    by_cases hx : q x
    · simp [hx, ih]
    · simp [hx, ih]

/-- For a listed holding, membership of its ticker among the dict keys is
exactly non-emptiness of its historical series. -/
theorem histKeys_mem_iff (m : MarketData) (ha : List HoldingAnalysis)
    (h : HoldingAnalysis) (hmem : h ∈ ha) :
    h.ticker ∈ histKeys m ha ↔ m.historical_prices h.ticker ≠ [] := by
  unfold histKeys
  rw [mem_dedupKeys]
  constructor
  · intro hin
    obtain ⟨h', hh', hf⟩ := List.mem_filterMap.mp hin
    by_cases hq : m.historical_prices h'.ticker = []
    · rw [if_pos hq] at hf
      cases hf
    · rw [if_neg hq] at hf
      rw [← Option.some.inj hf]
      exact hq
  · intro hq
    exact List.mem_filterMap.mpr ⟨h, hmem, by rw [if_neg hq]⟩

/-- With pairwise-distinct tickers, the weight vector has exactly one entry
per dict key (the mismatch that makes `DataFrame.dot` raise cannot occur). -/
theorem weightsFor_length (m : MarketData) (ha : List HoldingAnalysis)
    (hnd : (ha.map HoldingAnalysis.ticker).Nodup) :
    (weightsFor m ha).length = (histKeys m ha).length := by
  have hcand_nodup : (ha.filterMap fun h =>
      if m.historical_prices h.ticker = [] then none else some h.ticker).Nodup := by
    rw [filterMap_neg_if]
    exact List.Nodup.sublist ((List.filter_sublist ha).map _) hnd
  have hkeys : histKeys m ha = ha.filterMap fun h =>
      if m.historical_prices h.ticker = [] then none else some h.ticker := by
    unfold histKeys
    exact dedupKeys_eq_self _ hcand_nodup
  have hpred : ∀ h ∈ ha, (decide (h.ticker ∈ histKeys m ha)) =
      !decide (m.historical_prices h.ticker = []) := by
    intro h hm
    by_cases hq : m.historical_prices h.ticker = []
    · simp [histKeys_mem_iff m ha h hm, hq]
    · simp [histKeys_mem_iff m ha h hm, hq]
  unfold weightsFor
  rw [filterMap_pos_if, List.length_map, List.filter_congr hpred, hkeys,
    filterMap_neg_if, List.length_map]

/-- With pairwise-distinct tickers the portfolio-returns computation cannot
hit the `DataFrame.dot` shape mismatch. -/
theorem computePortfolioReturns_ok (m : MarketData) (ha : List HoldingAnalysis)
    (hnd : (ha.map HoldingAnalysis.ticker).Nodup) :
    ∃ v, computePortfolioReturns m ha = .ok v := by
  have hlen := weightsFor_length m ha hnd
  simp only [computePortfolioReturns]
  by_cases hk : histKeys m ha = []
  · rw [if_pos hk]
    exact ⟨_, rfl⟩
  · rw [if_neg hk]
    by_cases h0 : minLenOf ((histKeys m ha).map m.historical_prices) = 0
    · rw [if_pos h0]
      exact ⟨_, rfl⟩
    · rw [if_neg h0]
      by_cases h1 : minLenOf ((histKeys m ha).map m.historical_prices) - 1 = 0
      · rw [if_pos h1]
        exact ⟨_, rfl⟩
      · rw [if_neg h1, if_neg (by simp [hlen])]
        exact ⟨_, rfl⟩

/-- With pairwise-distinct tickers the drawdown computation cannot hit the
`DataFrame.dot` shape mismatch. -/
theorem computeMaxDrawdown_ok (m : MarketData) (ha : List HoldingAnalysis)
    (hnd : (ha.map HoldingAnalysis.ticker).Nodup) :
    ∃ v, computeMaxDrawdown m ha = .ok v := by
  have hlen := weightsFor_length m ha hnd
  simp only [computeMaxDrawdown]
  by_cases hk : histKeys m ha = []
  · rw [if_pos hk]
    exact ⟨_, rfl⟩
  · rw [if_neg hk]
    by_cases h0 : minLenOf ((histKeys m ha).map m.historical_prices) = 0
    · rw [if_pos h0]
      exact ⟨_, rfl⟩
    · rw [if_neg h0, if_neg (by simp [hlen])]
      exact ⟨_, rfl⟩

/-- A benchmark series of fewer than two observations yields a total return
of 0 without calling `total_return`. -/
theorem computeBenchmarkTotalReturn_short (m : MarketData) (t : String)
    (hshort : (m.historical_prices t).length < 2) :
    computeBenchmarkTotalReturn m t = .ok 0 := by
  unfold computeBenchmarkTotalReturn
  rw [if_pos (Or.inr hshort)]

/-- With positive historical prices, the benchmark total return never
raises. -/
theorem computeBenchmarkTotalReturn_ok (m : MarketData) (t : String)
    (hpos : ∀ q ∈ m.historical_prices t, 0 < q) :
    ∃ v, computeBenchmarkTotalReturn m t = .ok v := by
  unfold computeBenchmarkTotalReturn
  by_cases hc : m.historical_prices t = [] ∨ (m.historical_prices t).length < 2
  · rw [if_pos hc]
    exact ⟨0, rfl⟩
  · rw [if_neg hc]
    push_neg at hc
    obtain ⟨hne, -⟩ := hc
    obtain ⟨x, xs, hx⟩ := List.exists_cons_of_ne_nil hne
    have hhead : (m.historical_prices t).headD 0 = x := by rw [hx]; rfl
    have hxpos : 0 < x := hpos x (by rw [hx]; exact List.mem_cons_self _ _)
    unfold total_return
    rw [hhead, if_neg (not_le.mpr hxpos)]
    exact ⟨_, rfl⟩

/-- Structure of a successful `analyze`: either the degenerate path (no
resolvable prices) or the normal path, in which the holdings analysis, total
value and total cost come from the gathered (included) holdings only. -/
theorem analyze_ok_shape (m : MarketData) (p : Portfolio) (bm : String)
    (r : AnalysisResult) (hr : analyze m p bm = .ok r) :
    (gatherHoldingsData m p = [] ∧ r = emptyResult p bm) ∨
    (gatherHoldingsData m p ≠ [] ∧
      ∃ l', buildAll ((gatherHoldingsData m p).map HoldingData.market_value).sum
          (gatherHoldingsData m p) = .ok l' ∧
        r.holdings_analysis = l' ∧
        r.total_value = ((gatherHoldingsData m p).map HoldingData.market_value).sum ∧
        r.total_cost =
          ((gatherHoldingsData m p).map fun h => h.avg_cost * h.quantity).sum) := by
  simp only [analyze] at hr
  by_cases hg : gatherHoldingsData m p = []
  · rw [if_pos hg] at hr
    exact Or.inl ⟨hg, (Except.ok.inj hr).symm⟩
  · rw [if_neg hg] at hr
    refine Or.inr ⟨hg, ?_⟩
    cases hb : buildAll ((gatherHoldingsData m p).map HoldingData.market_value).sum
        (gatherHoldingsData m p) with
    | error e => rw [hb, ebind_error] at hr; cases hr
    | ok l' =>
      rw [hb, ebind_ok] at hr
      cases hcpr : computePortfolioReturns m l' with
      | error e => rw [hcpr, ebind_error] at hr; cases hr
      | ok prets =>
        rw [hcpr, ebind_ok] at hr
        cases htr : total_return
            ((gatherHoldingsData m p).map fun h => h.avg_cost * h.quantity).sum
            ((gatherHoldingsData m p).map HoldingData.market_value).sum with
        | error e => rw [htr, ebind_error] at hr; cases hr
        | ok tr =>
          rw [htr, ebind_ok] at hr
          cases har : annualized_return tr 1 with
          | error e => rw [har, ebind_error] at hr; cases hr
          | ok ar =>
            rw [har, ebind_ok] at hr
            cases hmdd : computeMaxDrawdown m l' with
            | error e => rw [hmdd, ebind_error] at hr; cases hr
            | ok mdd =>
              rw [hmdd, ebind_ok] at hr
              cases hbt : computeBenchmarkTotalReturn m bm with
              | error e => rw [hbt, ebind_error] at hr; cases hr
              | ok btr =>
                rw [hbt, ebind_ok] at hr
                obtain rfl := Except.ok.inj hr
                exact ⟨l', rfl, rfl, rfl, rfl⟩

/-- C4: in every successful analysis with positive total value, the weights
of the analysed holdings sum to 100 (so certainly within ±0.1), each being
`market_value / total_value * 100`; with zero total value every weight is
0. -/
theorem analyze_weight_sum (m : MarketData) (p : Portfolio) (bm : String)
    (r : AnalysisResult) (hr : analyze m p bm = .ok r) :
    (0 < r.total_value →
      |(r.holdings_analysis.map HoldingAnalysis.weight_pct).sum - 100| ≤ 1 / 10 ∧
      ∀ a ∈ r.holdings_analysis,
        a.weight_pct = a.market_value / r.total_value * 100) ∧
    (r.total_value = 0 → ∀ a ∈ r.holdings_analysis, a.weight_pct = 0) := by
  rcases analyze_ok_shape m p bm r hr with ⟨-, rfl⟩ | ⟨-, l', hb, hhold, htv, -⟩
  · refine ⟨fun htv => ?_, fun _ a ha => ?_⟩
    · simp [emptyResult] at htv
    · simp [emptyResult] at ha
  · constructor
    · intro htvpos
      have hTpos : 0 < ((gatherHoldingsData m p).map HoldingData.market_value).sum :=
        htv ▸ htvpos
      constructor
      · rw [hhold, buildAll_weight_sum _ _ _ hb hTpos, div_self (ne_of_gt hTpos)]
        norm_num
      · intro a ha
        rw [hhold] at ha
        obtain ⟨h, hh, hba⟩ := buildAll_mem _ _ _ a hb ha
        obtain ⟨-, rfl⟩ := buildHoldingAnalysis_ok _ _ _ hba
        dsimp only
        rw [htv, if_pos hTpos]
    · intro htv0 a ha
      have hT0 : ¬0 < ((gatherHoldingsData m p).map HoldingData.market_value).sum := by
        rw [← htv, htv0]
        exact lt_irrefl 0
      rw [hhold] at ha
      obtain ⟨h, hh, hba⟩ := buildAll_mem _ _ _ a hb ha
      obtain ⟨-, rfl⟩ := buildHoldingAnalysis_ok _ _ _ hba
      dsimp only
      rw [if_neg hT0]

/-- C5: with no resolvable price at all, `analyze` returns the degenerate
result (all metrics 0, empty holdings analysis, total cost the portfolio's
nominal cost basis over all holdings); in general the analysed holdings
never outnumber the portfolio's, every analysed entry has a resolvable
price, and on the normal path the total cost is summed over the included
set only. -/
theorem analyze_degenerate (m : MarketData) (p : Portfolio) (bm : String) :
    ((∀ h ∈ p.holdings, m.current_price h.ticker = none) →
      analyze m p bm = .ok { portfolio_name := p.name, total_value := 0,
                             total_cost := p.total_cost, total_return_pct := 0,
                             annualized_return_pct := 0, volatility_pct := some 0,
                             sharpe_ratio := some 0, max_drawdown_pct := 0,
                             beta := some 0, alpha_pct := some 0,
                             currency := p.currency, holdings_analysis := [],
                             benchmark_ticker := bm }) ∧
    (∀ r, analyze m p bm = .ok r →
      r.holdings_analysis.length ≤ p.holdings.length) ∧
    (∀ r, analyze m p bm = .ok r → ∀ a ∈ r.holdings_analysis,
      (m.current_price a.ticker).isSome) ∧
    (∀ r, analyze m p bm = .ok r → r.holdings_analysis ≠ [] →
      r.total_cost =
        ((gatherHoldingsData m p).map fun h => h.avg_cost * h.quantity).sum) := by
  refine ⟨fun hnone => ?_, fun r hr => ?_, fun r hr a ha => ?_, fun r hr hne => ?_⟩
  · simp only [analyze]
    rw [if_pos (gather_eq_nil m p hnone)]
    rfl
  · rcases analyze_ok_shape m p bm r hr with ⟨-, rfl⟩ | ⟨-, l', hb, hhold, -, -⟩
    · simp [emptyResult]
    · rw [hhold, buildAll_length _ _ _ hb]
      exact gather_length_le m p
  · rcases analyze_ok_shape m p bm r hr with ⟨-, rfl⟩ | ⟨-, l', hb, hhold, -, -⟩
    · simp [emptyResult] at ha
    · rw [hhold] at ha
      obtain ⟨h, hh, hba⟩ := buildAll_mem _ _ _ a hb ha
      obtain ⟨-, rfl⟩ := buildHoldingAnalysis_ok _ _ _ hba
      obtain ⟨h0, hh0, price, hcp, rfl⟩ := gather_mem m p h hh
      dsimp only
      rw [hcp]
      rfl
  · rcases analyze_ok_shape m p bm r hr with ⟨-, rfl⟩ | ⟨-, l', hb, hhold, -, hcost⟩
    · simp [emptyResult] at hne
    · exact hcost

/-- C6 (amended): for a portfolio with pairwise-distinct tickers whose
holdings satisfy the loader's validation (positive quantity and cost basis),
and market data whose present current prices and historical prices are
positive (absences being arbitrary), `analyze` never raises; the benchmark
total-return computation returns 0 whenever the series has fewer than two
observations, avoiding the raising `total_return`. -/
theorem analyze_no_raise (m : MarketData) (p : Portfolio) (bm : String)
    (hval : ∀ h ∈ p.holdings, 0 < h.quantity ∧ 0 < h.avg_cost)
    (hnd : (p.holdings.map Holding.ticker).Nodup)
    (_hcp : ∀ t q, m.current_price t = some q → 0 < q)
    (hhist : ∀ t : String, ∀ q ∈ m.historical_prices t, 0 < q) :
    (∃ r, analyze m p bm = .ok r) ∧
    (∀ t : String, (m.historical_prices t).length < 2 →
      computeBenchmarkTotalReturn m t = .ok 0) := by
  refine ⟨?_, fun t ht => computeBenchmarkTotalReturn_short m t ht⟩
  by_cases hg : gatherHoldingsData m p = []
  · exact ⟨_, by simp only [analyze]; rw [if_pos hg]⟩
  · have hcost_ne : ∀ h ∈ gatherHoldingsData m p, h.avg_cost ≠ 0 := by
      intro h hh
      obtain ⟨h0, hh0, price, -, rfl⟩ := gather_mem m p h hh
      exact ne_of_gt (hval h0 hh0).2
    obtain ⟨l', hb⟩ :=
      buildAll_ok ((gatherHoldingsData m p).map HoldingData.market_value).sum
        (gatherHoldingsData m p) hcost_ne
    have hndl : (l'.map HoldingAnalysis.ticker).Nodup := by
      rw [buildAll_map_ticker _ _ _ hb]
      exact List.Nodup.sublist (gather_tickers_sublist m p) hnd
    obtain ⟨prets, hcpr⟩ := computePortfolioReturns_ok m l' hndl
    have hcost_pos :
        0 < ((gatherHoldingsData m p).map fun h => h.avg_cost * h.quantity).sum := by
      apply List.sum_pos
      · intro x hx
        obtain ⟨h, hh, rfl⟩ := List.mem_map.mp hx
        obtain ⟨h0, hh0, price, -, rfl⟩ := gather_mem m p h hh
        exact mul_pos (hval h0 hh0).2 (hval h0 hh0).1
      · intro hcon
        exact hg (by simpa using hcon)
    obtain ⟨tr, htr⟩ : ∃ tr, total_return
        ((gatherHoldingsData m p).map fun h => h.avg_cost * h.quantity).sum
        ((gatherHoldingsData m p).map HoldingData.market_value).sum = .ok tr :=
      ⟨_, by unfold total_return; rw [if_neg (not_le.mpr hcost_pos)]⟩
    obtain ⟨ar, har⟩ : ∃ ar, annualized_return tr 1 = .ok ar :=
      ⟨_, by unfold annualized_return; rw [if_neg (by norm_num)]⟩
    obtain ⟨mdd, hmdd⟩ := computeMaxDrawdown_ok m l' hndl
    obtain ⟨btr, hbt⟩ := computeBenchmarkTotalReturn_ok m bm (hhist bm)
    exact ⟨_, by
      simp only [analyze]
      rw [if_neg hg, hb, ebind_ok, hcpr, ebind_ok, htr, ebind_ok, har, ebind_ok,
        hmdd, ebind_ok, hbt, ebind_ok]⟩

/-- C6 counterexample: a validator-conformant portfolio holding two lots of
the same ticker, with fully available, positive market data (no missing or
partial data), makes `analyze` raise: the `all_prices` dict collapses the
duplicated ticker to one DataFrame column while the weight vector keeps one
entry per holding, and `returns_df.dot(weights)` raises
`ValueError("Dot product shape mismatch")`. -/
theorem analyze_duplicate_ticker_raises :
    (∀ h ∈ pC6x.holdings, 0 < h.quantity ∧ 0 < h.avg_cost) ∧
    (∀ t q, mC6x.current_price t = some q → 0 < q) ∧
    (∀ t : String, ∀ q ∈ mC6x.historical_prices t, 0 < q) ∧
    analyze mC6x pC6x ("SPY") = .error ("Dot product shape mismatch") := by
  refine ⟨?_, ?_, ?_, ?_⟩
  · intro h hh
    rcases List.mem_cons.mp hh with rfl | hh2
    · exact ⟨by norm_num, by norm_num⟩
    · rcases List.mem_cons.mp hh2 with rfl | hh3
      · exact ⟨by norm_num, by norm_num⟩
      · cases hh3
  · intro t q hq
    rw [show mC6x.current_price t = some 10 from rfl] at hq
    rw [← Option.some.inj hq]
    norm_num
  · intro t q hq
    rw [show mC6x.historical_prices t = [10, 11] from rfl] at hq
    rcases List.mem_cons.mp hq with rfl | hq2
    · norm_num
    · rcases List.mem_cons.mp hq2 with rfl | hq3
      · norm_num
      · cases hq3
  · have hg : gatherHoldingsData mC6x pC6x =
        [⟨"AAPL", "Lot one", 1, 5, 10, 10, "Tech"⟩,
         ⟨"AAPL", "Lot two", 2, 5, 10, 20, "Tech"⟩] := by
      simp [gatherHoldingsData, gatherOne, mC6x, pC6x]
      norm_num
    have hbuild : buildAll
        ((List.map HoldingData.market_value
          [(⟨"AAPL", "Lot one", 1, 5, 10, 10, "Tech"⟩ : HoldingData),
           ⟨"AAPL", "Lot two", 2, 5, 10, 20, "Tech"⟩]).sum)
        [⟨"AAPL", "Lot one", 1, 5, 10, 10, "Tech"⟩,
         ⟨"AAPL", "Lot two", 2, 5, 10, 20, "Tech"⟩] =
        .ok [⟨"AAPL", "Lot one", 1, 5, 10, 10, 100 / 3, 100, "Tech"⟩,
             ⟨"AAPL", "Lot two", 2, 5, 10, 20, 200 / 3, 100, "Tech"⟩] := by
      simp [buildAll, buildHoldingAnalysis, ebind_ok]
      norm_num
    have hcpr : computePortfolioReturns mC6x
        [⟨"AAPL", "Lot one", 1, 5, 10, 10, 100 / 3, 100, "Tech"⟩,
         ⟨"AAPL", "Lot two", 2, 5, 10, 20, 200 / 3, 100, "Tech"⟩] =
        .error ("Dot product shape mismatch") := by
      simp [computePortfolioReturns, histKeys, dedupKeys, weightsFor, minLenOf, mC6x]
    simp only [analyze]
    rw [hg, if_neg (by simp), hbuild, ebind_ok, hcpr, ebind_error]

/-- Witness for the amended C6: a clean single-holding portfolio with a
resolvable price analyses without error, and an empty benchmark history
yields a benchmark total return of 0. -/
theorem analyze_no_raise_witness :
    (∃ r, analyze mC6w pC6w ("SPY") = .ok r) ∧
    computeBenchmarkTotalReturn mC6w ("SPY") = .ok 0 := by
  obtain ⟨h1, h2⟩ := analyze_no_raise mC6w pC6w ("SPY")
    (by
      intro h hh
      rcases List.mem_cons.mp hh with rfl | hh2
      · exact ⟨by norm_num, by norm_num⟩
      · cases hh2)
    (by simp [pC6w])
    (by
      intro t q hq
      simp only [mC6w] at hq
      by_cases ht : t = "AAPL"
      · rw [if_pos ht] at hq
        rw [← Option.some.inj hq]
        norm_num
      · rw [if_neg ht] at hq
        cases hq)
    (by
      intro t q hq
      simp only [mC6w] at hq
      cases hq)
  exact ⟨h1, h2 ("SPY") (by simp [mC6w])⟩

/-- Witness for C5: with no resolvable price, `analyze` returns exactly the
degenerate result, whose holdings analysis is no longer than the
portfolio. -/
theorem analyze_degenerate_witness :
    analyze mC5 pC5 ("SPY") = .ok { portfolio_name := pC5.name, total_value := 0,
                                    total_cost := pC5.total_cost,
                                    total_return_pct := 0,
                                    annualized_return_pct := 0,
                                    volatility_pct := some 0, sharpe_ratio := some 0,
                                    max_drawdown_pct := 0, beta := some 0,
                                    alpha_pct := some 0, currency := pC5.currency,
                                    holdings_analysis := [],
                                    benchmark_ticker := "SPY" } ∧
    ∃ r, analyze mC5 pC5 ("SPY") = .ok r ∧
      r.holdings_analysis.length ≤ pC5.holdings.length := by
  have h1 := (analyze_degenerate mC5 pC5 ("SPY")).1 fun h _ => rfl
  exact ⟨h1, _, h1, (analyze_degenerate mC5 pC5 ("SPY")).2.1 _ h1⟩

/-- Witness for C4: a concrete one-holding analysis with total value 50 whose
weights sum to 100 within ±0.1. -/
theorem analyze_weight_sum_witness :
    ∃ r, analyze mC4 pC4 ("SPY") = .ok r ∧ 0 < r.total_value ∧
      |(r.holdings_analysis.map HoldingAnalysis.weight_pct).sum - 100| ≤ 1 / 10 := by
  have hr : analyze mC4 pC4 ("SPY") = .ok rC4 := by
    have hg : gatherHoldingsData mC4 pC4 = [⟨"AAPL", "Apple", 5, 8, 10, 50, "Tech"⟩] := by
      simp [gatherHoldingsData, gatherOne, mC4, pC4]
      norm_num
    have hb : buildAll 50
        [(⟨"AAPL", "Apple", 5, 8, 10, 50, "Tech"⟩ : HoldingData)] = .ok [haC4] := by
      simp [buildAll, buildHoldingAnalysis, haC4, ebind_ok]
      norm_num
    have hcpr : computePortfolioReturns mC4 [haC4] = .ok [] := by
      simp [computePortfolioReturns, histKeys, dedupKeys, mC4, haC4]
    have hmdd : computeMaxDrawdown mC4 [haC4] = .ok 0 := by
      simp [computeMaxDrawdown, histKeys, dedupKeys, mC4, haC4]
    have hbt : computeBenchmarkTotalReturn mC4 ("SPY") = .ok 0 := by
      simp [computeBenchmarkTotalReturn, mC4]
    simp only [analyze, hg]
    norm_num
    rw [hb, ebind_ok, hcpr, ebind_ok]
    simp only [total_return, annualized_return]
    norm_num
    rw [hmdd, ebind_ok, hbt, ebind_ok]
    simp [getBenchmarkReturns, pctChange, mC4, pC4, beta, volatility, sharpe_ratio,
      alpha, rC4, haC4, ebind_ok]
  have htv : (0 : ℚ) < rC4.total_value := by norm_num [rC4]
  exact ⟨rC4, hr, htv, ((analyze_weight_sum mC4 pC4 ("SPY") rC4 hr).1 htv).1⟩
